import Mathlib

/-!
Shallow embedding of `duped.py`, a duplicate-file finder.

The program operates on byte-string paths (`os.walk` over `bytes`
directories, `str.encode()` on arguments), so a path is modelled as a
list of natural numbers (its byte sequence).  Python's `bytes`
comparison is lexicographic on bytes, and `bytes.startswith` is
byte-sequence matching; both are defined below by direct recursion.

Embedded here, from the source:
  * `decider`            (duped.py lines 69-88)   — keep/delete split
  * `generate_file_list` (duped.py lines 52-66)   — walk with skip-dir pruning
  * `HashDB`             (duped.py lines 12-31)   — digest → paths index
  * the build result loop (duped.py lines 149-153)
  * `hasher`             (duped.py lines 34-49)   — per-file digesting
  * the skip-set setup of `build` (duped.py lines 128-138)
-/

open List

/-- A filesystem path, as its byte sequence (the Python code walks with
`bytes` paths throughout). -/
abbrev Bytes := List Nat

/-- Lexicographic order on byte strings: Python's `<=` on `bytes`.
Used by `list.sort()` in `decider` (duped.py line 73). -/
def bytesLe : Bytes → Bytes → Bool
  | [], _ => true
  | _ :: _, [] => false
  | a :: as, b :: bs =>
    if a < b then true
    else if a = b then bytesLe as bs
    else false

/-- `bytesLe` as a relation, for use with Mathlib's sorting machinery. -/
def pleq (a b : Bytes) : Prop := bytesLe a b = true

instance : DecidableRel pleq := fun a b =>
  inferInstanceAs (Decidable (bytesLe a b = true))

theorem bytesLe_total : ∀ a b : Bytes, bytesLe a b = true ∨ bytesLe b a = true
  | [], _ => Or.inl rfl
  | _ :: _, [] => Or.inr rfl
  | a :: as, b :: bs => by
    rcases Nat.lt_trichotomy a b with h | h | h
    · simp [bytesLe, h]
    · subst h
      rcases bytesLe_total as bs with ih | ih <;> simp [bytesLe, ih]
    · simp [bytesLe, h, Nat.lt_asymm h, Nat.ne_of_gt h]

theorem bytesLe_antisymm :
    ∀ a b : Bytes, bytesLe a b = true → bytesLe b a = true → a = b
  | [], [], _, _ => rfl
  | [], _ :: _, _, hba => by simp [bytesLe] at hba
  | _ :: _, [], hab, _ => by simp [bytesLe] at hab
  | a :: as, b :: bs, hab, hba => by
    rcases Nat.lt_trichotomy a b with h | h | h
    · simp [bytesLe, Nat.lt_asymm h, Nat.ne_of_gt h] at hba
    · subst h
      simp only [bytesLe, lt_irrefl, if_false, if_pos rfl, if_neg] at hab hba
      simp [bytesLe_antisymm as bs hab hba]
    · simp [bytesLe, Nat.lt_asymm h, Nat.ne_of_gt h] at hab

theorem bytesLe_trans :
    ∀ a b c : Bytes, bytesLe a b = true → bytesLe b c = true → bytesLe a c = true
  | [], _, _, _, _ => rfl
  | _ :: _, [], _, hab, _ => by simp [bytesLe] at hab
  | _ :: _, _ :: _, [], _, hbc => by simp [bytesLe] at hbc
  | a :: as, b :: bs, c :: cs, hab, hbc => by
    by_cases h1 : a < b
    · by_cases h2 : b < c
      · simp [bytesLe, Nat.lt_trans h1 h2]
      · by_cases h3 : b = c
        · subst h3; simp [bytesLe, h1]
        · simp [bytesLe, h2, h3] at hbc
    · by_cases h3 : a = b
      · subst h3
        simp only [bytesLe, if_neg h1, if_pos rfl] at hab
        by_cases h2 : a < c
        · simp [bytesLe, h2]
        · by_cases h4 : a = c
          · subst h4
            simp only [bytesLe, if_neg h1, if_pos rfl] at hbc ⊢
            exact bytesLe_trans as bs cs hab hbc
          · simp [bytesLe, h2, h4] at hbc
      · simp [bytesLe, h1, h3] at hab

instance : IsTotal Bytes pleq := ⟨bytesLe_total⟩
instance : IsTrans Bytes pleq := ⟨fun a b c => bytesLe_trans a b c⟩
instance : IsAntisymm Bytes pleq := ⟨fun a b => bytesLe_antisymm a b⟩

/-- Python's `bytes.startswith`: `startsWith s p` is true when `p` is an
initial segment of `s` (duped.py line 77, `filename.startswith(delete_prefix)`). -/
def startsWith : Bytes → Bytes → Bool
  | _, [] => true
  | [], _ :: _ => false
  | a :: as, b :: bs => a == b && startsWith as bs

/-- `files.sort()` (duped.py line 73): sorting a byte-string list in
Python's order.  Insertion sort computes the same result as any sort,
because the sorted permutation under a total antisymmetric order is
unique. -/
def sortBytes (l : List Bytes) : List Bytes := l.insertionSort pleq

theorem sortBytes_sorted (l : List Bytes) : (sortBytes l).Sorted pleq :=
  sorted_insertionSort pleq l

theorem sortBytes_perm (l : List Bytes) : List.Perm (sortBytes l) l :=
  perm_insertionSort pleq l

theorem sortBytes_eq_of_perm {l₁ l₂ : List Bytes} (h : List.Perm l₁ l₂) :
    sortBytes l₁ = sortBytes l₂ :=
  eq_of_perm_of_sorted (((sortBytes_perm l₁).trans h).trans (sortBytes_perm l₂).symm)
    (sortBytes_sorted l₁) (sortBytes_sorted l₂)

/-- The delete-candidates accumulator of `decider` (duped.py lines 75-78):
for each delete prefix in order, every file of the group that starts with
it is appended (`new_delete_files.extend(...)`). -/
def deleteCand (files ps : List Bytes) : List Bytes :=
  ps.foldl (fun acc p => acc ++ files.filter (fun f => startsWith f p)) []

/-- The body of `decider`'s per-group loop (duped.py lines 72-85): sort the
group; if it has more than one member, collect delete candidates and keep
the rest; when nothing would be kept, `new_delete_files.pop()` removes the
accumulator's last element (`dropLast`) and it becomes the sole keep entry
(`reverse.take 1`); a group of at most one member is kept whole. -/
def decideGroup (files ps : List Bytes) : List Bytes × List Bytes :=
  let sorted := sortBytes files
  if 1 < sorted.length then
    let dc := deleteCand sorted ps
    let kc := sorted.filter (fun f => decide (f ∉ dc))
    if kc = [] then (dc.reverse.take 1, dc.dropLast) else (kc, dc)
  else (sorted, [])

/-- One iteration of `decider`'s outer loop (duped.py lines 86-87): the
group's keep and delete lists are appended to the global ones. -/
def decideStep (ps : List Bytes) (acc : List Bytes × List Bytes)
    (files : List Bytes) : List Bytes × List Bytes :=
  (acc.1 ++ (decideGroup files ps).1, acc.2 ++ (decideGroup files ps).2)

/-- `decider(hash_dict, delete_list)` (duped.py lines 69-88).  The hash
dictionary enters only through `hash_dict.values()`, so it is modelled as
the list of its digest groups, in iteration order. -/
def decider (hash_dict : List (List Bytes)) (delete_list : List Bytes) :
    List Bytes × List Bytes :=
  hash_dict.foldl (decideStep delete_list) ([], [])

theorem foldl_decideStep (ps : List Bytes) :
    ∀ (d : List (List Bytes)) (a b : List Bytes),
      d.foldl (decideStep ps) (a, b) =
        (a ++ (d.foldl (decideStep ps) ([], [])).1,
         b ++ (d.foldl (decideStep ps) ([], [])).2)
  | [], a, b => by simp
  | g :: d, a, b => by
    simp only [foldl_cons, decideStep, nil_append]
    rw [foldl_decideStep ps d (a ++ (decideGroup g ps).1) (b ++ (decideGroup g ps).2),
      foldl_decideStep ps d (decideGroup g ps).1 (decideGroup g ps).2]
    simp [append_assoc]

theorem decider_cons (g : List Bytes) (d : List (List Bytes)) (ps : List Bytes) :
    decider (g :: d) ps =
      ((decideGroup g ps).1 ++ (decider d ps).1,
       (decideGroup g ps).2 ++ (decider d ps).2) := by
  simp only [decider, foldl_cons, decideStep, nil_append]
  exact foldl_decideStep ps d _ _

theorem mem_deleteCand_aux (files : List Bytes) :
    ∀ (ps acc : List Bytes) (x : Bytes),
      (x ∈ ps.foldl (fun acc p => acc ++ files.filter (fun f => startsWith f p)) acc ↔
        x ∈ acc ∨ ∃ p ∈ ps, x ∈ files ∧ startsWith x p = true)
  | [], acc, x => by simp
  | p :: ps, acc, x => by
    simp only [foldl_cons]
    rw [mem_deleteCand_aux files ps]
    simp only [mem_append, mem_filter, mem_cons]
    constructor
    · rintro ((h | ⟨hf, hs⟩) | ⟨q, hq, hf, hs⟩)
      · exact Or.inl h
      · exact Or.inr ⟨p, Or.inl rfl, hf, hs⟩
      · exact Or.inr ⟨q, Or.inr hq, hf, hs⟩
    · rintro (h | ⟨q, hq | hq, hf, hs⟩)
      · exact Or.inl (Or.inl h)
      · subst hq; exact Or.inl (Or.inr ⟨hf, hs⟩)
      · exact Or.inr ⟨q, hq, hf, hs⟩

theorem mem_deleteCand {files ps : List Bytes} {x : Bytes} :
    x ∈ deleteCand files ps ↔ ∃ p ∈ ps, x ∈ files ∧ startsWith x p = true := by
  rw [deleteCand, mem_deleteCand_aux]
  simp

theorem deleteCand_subset (files ps : List Bytes) : deleteCand files ps ⊆ files := by
  intro x hx
  exact (mem_deleteCand.mp hx).choose_spec.2.1

theorem count_deleteCand_aux (files : List Bytes) (x : Bytes) :
    ∀ (ps acc : List Bytes),
      (ps.foldl (fun acc p => acc ++ files.filter (fun f => startsWith f p)) acc).count x =
        acc.count x + ps.countP (fun p => startsWith x p) * files.count x
  | [], acc => by simp
  | p :: ps, acc => by
    simp only [foldl_cons]
    rw [count_deleteCand_aux files x ps, count_append, countP_cons]
    by_cases h : startsWith x p = true
    · have hc : (files.filter (fun f => startsWith f p)).count x = files.count x :=
        count_filter (p := fun f => startsWith f p) h
      rw [hc]
      simp only [h, if_true]
      ring
    · have hnm : x ∉ files.filter (fun f => startsWith f p) := by
        simp only [mem_filter]
        exact fun hc => h hc.2
      rw [count_eq_zero.mpr hnm]
      simp [h]

theorem count_deleteCand (files ps : List Bytes) (x : Bytes) :
    (deleteCand files ps).count x =
      ps.countP (fun p => startsWith x p) * files.count x := by
  rw [deleteCand, count_deleteCand_aux]
  simp

theorem decideGroup_eq_of_small {g ps : List Bytes}
    (h : ¬ 1 < (sortBytes g).length) :
    decideGroup g ps = (sortBytes g, []) := by
  simp [decideGroup, h]

theorem decideGroup_eq_of_keep {g ps : List Bytes}
    (h : 1 < (sortBytes g).length)
    (hk : (sortBytes g).filter
        (fun f => decide (f ∉ deleteCand (sortBytes g) ps)) ≠ []) :
    decideGroup g ps =
      ((sortBytes g).filter (fun f => decide (f ∉ deleteCand (sortBytes g) ps)),
       deleteCand (sortBytes g) ps) := by
  simp only [decideGroup]
  rw [if_pos h, if_neg hk]

theorem decideGroup_eq_of_pop {g ps : List Bytes}
    (h : 1 < (sortBytes g).length)
    (hk : (sortBytes g).filter
        (fun f => decide (f ∉ deleteCand (sortBytes g) ps)) = []) :
    decideGroup g ps =
      ((deleteCand (sortBytes g) ps).reverse.take 1,
       (deleteCand (sortBytes g) ps).dropLast) := by
  simp only [decideGroup]
  rw [if_pos h, if_pos hk]

theorem reverse_take_one {α : Type} (l : List α) (h : l ≠ []) :
    l.reverse.take 1 = [l.getLast h] := by
  conv_lhs => rw [← dropLast_concat_getLast h]
  rw [reverse_append]
  simp

theorem mem_dropLast_or_last {α : Type} {l : List α} {x : α} (h : x ∈ l) :
    x ∈ l.dropLast ∨ x ∈ l.reverse.take 1 := by
  have hne : l ≠ [] := ne_nil_of_mem h
  rw [reverse_take_one l hne]
  conv at h => rw [← dropLast_concat_getLast hne]
  rcases mem_append.mp h with h1 | h1
  · exact Or.inl h1
  · exact Or.inr h1

theorem decideGroup_del_sub_dc (g ps : List Bytes) :
    (decideGroup g ps).2 ⊆ deleteCand (sortBytes g) ps := by
  by_cases h : 1 < (sortBytes g).length
  · by_cases hk : (sortBytes g).filter
        (fun f => decide (f ∉ deleteCand (sortBytes g) ps)) = []
    · rw [decideGroup_eq_of_pop h hk]
      exact (dropLast_sublist _).subset
    · rw [decideGroup_eq_of_keep h hk]
      exact fun x hx => hx
  · rw [decideGroup_eq_of_small h]
    intro x hx
    cases hx

theorem decideGroup_del_subset (g ps : List Bytes) : (decideGroup g ps).2 ⊆ g :=
  fun x hx =>
    (sortBytes_perm g).mem_iff.mp
      (deleteCand_subset (sortBytes g) ps (decideGroup_del_sub_dc g ps hx))

theorem decideGroup_keep_subset (g ps : List Bytes) : (decideGroup g ps).1 ⊆ g := by
  intro x hx
  apply (sortBytes_perm g).mem_iff.mp
  by_cases h : 1 < (sortBytes g).length
  · by_cases hk : (sortBytes g).filter
        (fun f => decide (f ∉ deleteCand (sortBytes g) ps)) = []
    · rw [decideGroup_eq_of_pop h hk] at hx
      exact deleteCand_subset (sortBytes g) ps
        (mem_reverse.mp (take_subset 1 _ hx))
    · rw [decideGroup_eq_of_keep h hk] at hx
      exact (mem_filter.mp hx).1
  · rw [decideGroup_eq_of_small h] at hx
    exact hx

theorem sortBytes_ne_nil {g : List Bytes} (hne : g ≠ []) : sortBytes g ≠ [] := by
  intro hc
  exact hne ((hc ▸ sortBytes_perm g).symm.eq_nil)

theorem decideGroup_cover {g : List Bytes} (ps : List Bytes) (hne : g ≠ []) :
    (∃ x, x ∈ (decideGroup g ps).1 ∧ x ∈ g) ∧
      ∀ x, x ∈ g → x ∈ (decideGroup g ps).1 ∨ x ∈ (decideGroup g ps).2 := by
  by_cases h : 1 < (sortBytes g).length
  · by_cases hk : (sortBytes g).filter
        (fun f => decide (f ∉ deleteCand (sortBytes g) ps)) = []
    · rw [decideGroup_eq_of_pop h hk]
      have hall : ∀ f ∈ sortBytes g, f ∈ deleteCand (sortBytes g) ps := by
        intro f hf
        have := filter_eq_nil_iff.mp hk f hf
        simpa using this
      constructor
      · obtain ⟨f, hf⟩ := exists_mem_of_ne_nil _ (sortBytes_ne_nil hne)
        have hdcne : deleteCand (sortBytes g) ps ≠ [] := ne_nil_of_mem (hall f hf)
        refine ⟨(deleteCand (sortBytes g) ps).getLast hdcne, ?_, ?_⟩
        · rw [reverse_take_one _ hdcne]
          exact mem_singleton.mpr rfl
        · exact (sortBytes_perm g).mem_iff.mp
            (deleteCand_subset _ _ (getLast_mem hdcne))
      · intro x hx
        have hxdc := hall x ((sortBytes_perm g).mem_iff.mpr hx)
        rcases mem_dropLast_or_last hxdc with h1 | h1
        · exact Or.inr h1
        · exact Or.inl h1
    · rw [decideGroup_eq_of_keep h hk]
      constructor
      · obtain ⟨f, hf⟩ := exists_mem_of_ne_nil _ hk
        exact ⟨f, hf, (sortBytes_perm g).mem_iff.mp (mem_filter.mp hf).1⟩
      · intro x hx
        by_cases hdc : x ∈ deleteCand (sortBytes g) ps
        · exact Or.inr hdc
        · refine Or.inl (mem_filter.mpr ⟨(sortBytes_perm g).mem_iff.mpr hx, ?_⟩)
          simpa using hdc
  · rw [decideGroup_eq_of_small h]
    constructor
    · obtain ⟨f, hf⟩ := exists_mem_of_ne_nil _ (sortBytes_ne_nil hne)
      exact ⟨f, hf, (sortBytes_perm g).mem_iff.mp hf⟩
    · intro x hx
      exact Or.inl ((sortBytes_perm g).mem_iff.mpr hx)

theorem decider_subsets_of_mem {d : List (List Bytes)} {g : List Bytes}
    (ps : List Bytes) (hg : g ∈ d) :
    (decideGroup g ps).1 ⊆ (decider d ps).1 ∧
      (decideGroup g ps).2 ⊆ (decider d ps).2 := by
  induction d with
  | nil => cases hg
  | cons a d ih =>
    rw [decider_cons]
    rcases mem_cons.mp hg with h | h
    · subst h
      exact ⟨fun x hx => mem_append.mpr (Or.inl hx),
        fun x hx => mem_append.mpr (Or.inl hx)⟩
    · rcases ih h with ⟨h1, h2⟩
      exact ⟨fun x hx => mem_append.mpr (Or.inr (h1 hx)),
        fun x hx => mem_append.mpr (Or.inr (h2 hx))⟩

/-- C1: for every hash index and every delete-prefix list, and for every
nonempty digest group in the index, the keep list meets the group, and the
keep and delete lists restricted to the group's members, taken as a set,
equal the set of the group's members. -/
theorem decider_group_invariant (d : List (List Bytes)) (ps : List Bytes)
    (g : List Bytes) (hg : g ∈ d) (hne : g ≠ []) :
    (∃ x, x ∈ (decider d ps).1 ∧ x ∈ g) ∧
      ∀ x, ((x ∈ (decider d ps).1 ∨ x ∈ (decider d ps).2) ∧ x ∈ g) ↔ x ∈ g := by
  obtain ⟨hsub1, hsub2⟩ := decider_subsets_of_mem ps hg
  obtain ⟨⟨x, hx1, hx2⟩, hcov⟩ := decideGroup_cover (g := g) ps hne
  refine ⟨⟨x, hsub1 hx1, hx2⟩, fun y => ⟨fun hy => hy.2, fun hy => ⟨?_, hy⟩⟩⟩
  exact (hcov y hy).imp (fun h => hsub1 h) (fun h => hsub2 h)

/-- Witness for C1 at a concrete index and prefix list. -/
theorem decider_group_invariant_witness :
    (∃ x, x ∈ (decider [[[47, 98], [47, 97]]] [[47, 97]]).1 ∧
        x ∈ [[47, 98], [47, 97]]) ∧
      ∀ x, ((x ∈ (decider [[[47, 98], [47, 97]]] [[47, 97]]).1 ∨
          x ∈ (decider [[[47, 98], [47, 97]]] [[47, 97]]).2) ∧
          x ∈ [[47, 98], [47, 97]]) ↔ x ∈ [[47, 98], [47, 97]] :=
  decider_group_invariant [[[47, 98], [47, 97]]] [[47, 97]] [[47, 98], [47, 97]]
    (by decide) (by decide)

/-- C10: every path in the delete list returned by `decider` starts with at
least one of the given delete prefixes. -/
theorem decider_del_matches (d : List (List Bytes)) (ps : List Bytes) (x : Bytes)
    (hx : x ∈ (decider d ps).2) : ∃ p ∈ ps, startsWith x p = true := by
  induction d with
  | nil => simp [decider] at hx
  | cons g d ih =>
    rw [decider_cons] at hx
    rcases mem_append.mp hx with h | h
    · obtain ⟨p, hp, _, hs⟩ := mem_deleteCand.mp (decideGroup_del_sub_dc g ps h)
      exact ⟨p, hp, hs⟩
    · exact ih h

/-- Witness for C10: `/a/x` is deleted and indeed starts with prefix `/a`. -/
theorem decider_del_matches_witness :
    [47, 97, 47, 120] ∈ (decider [[[47, 97, 47, 120], [47, 98]]] [[47, 97]]).2 ∧
      ∃ p ∈ [[47, 97]], startsWith [47, 97, 47, 120] p = true :=
  ⟨by decide, decider_del_matches [[[47, 97, 47, 120], [47, 98]]] [[47, 97]]
    [47, 97, 47, 120] (by decide)⟩

/-- All paths stored in a hash index, across its digest groups. -/
def indexPaths : List (List Bytes) → List Bytes
  | [] => []
  | g :: d => g ++ indexPaths d

theorem mem_indexPaths {d : List (List Bytes)} {g : List Bytes} {x : Bytes}
    (hg : g ∈ d) (hx : x ∈ g) : x ∈ indexPaths d := by
  induction d with
  | nil => cases hg
  | cons a d ih =>
    rcases mem_cons.mp hg with h | h
    · subst h
      exact mem_append.mpr (Or.inl hx)
    · exact mem_append.mpr (Or.inr (ih h))

theorem decideGroup_singleton (ps : List Bytes) (x : Bytes) :
    decideGroup [x] ps = ([x], []) := by
  have hs : sortBytes [x] = [x] := rfl
  simp [decideGroup, hs]

theorem decider_del_sub_index (d : List (List Bytes)) (ps : List Bytes) :
    (decider d ps).2 ⊆ indexPaths d := by
  induction d with
  | nil => simp [decider]
  | cons g d ih =>
    rw [decider_cons]
    intro x hx
    rcases mem_append.mp hx with h | h
    · exact mem_append.mpr (Or.inl (decideGroup_del_subset g ps h))
    · exact mem_append.mpr (Or.inr (ih h))

/-- C7: a digest group with exactly one member is kept whole — the member
goes to the keep list and never to the delete list, even when it matches a
delete prefix (the index's paths being pairwise distinct across groups, as
`build` hashes each discovered path exactly once). -/
theorem decider_singleton_group :
    ∀ (d : List (List Bytes)) (ps : List Bytes) (x : Bytes),
      [x] ∈ d → (indexPaths d).Nodup →
      x ∈ (decider d ps).1 ∧ x ∉ (decider d ps).2
  | [], _, _, hg, _ => by cases hg
  | g :: d, ps, x, hg, hnd => by
    obtain ⟨hg1, hd1, hdisj⟩ := nodup_append.mp (by simpa [indexPaths] using hnd)
    rw [decider_cons]
    rcases mem_cons.mp hg with h | h
    · subst h
      constructor
      · apply mem_append.mpr
        left
        rw [decideGroup_singleton]
        exact mem_singleton.mpr rfl
      · intro hc
        rcases mem_append.mp hc with hc1 | hc1
        · rw [decideGroup_singleton] at hc1
          cases hc1
        · exact hdisj (mem_singleton.mpr rfl) (decider_del_sub_index d ps hc1)
    · obtain ⟨ih1, ih2⟩ := decider_singleton_group d ps x h hd1
      constructor
      · exact mem_append.mpr (Or.inr ih1)
      · intro hc
        rcases mem_append.mp hc with hc1 | hc1
        · exact hdisj (decideGroup_del_subset g ps hc1)
            (mem_indexPaths h (mem_singleton.mpr rfl))
        · exact ih2 hc1

/-- Witness for C7: the singleton group `{/a/x}` with delete prefix `/a`;
its member is kept and not deleted despite matching the prefix. -/
theorem decider_singleton_group_witness :
    [47, 97, 47, 120] ∈ (decider [[[47, 97, 47, 120]]] [[47, 97]]).1 ∧
      [47, 97, 47, 120] ∉ (decider [[[47, 97, 47, 120]]] [[47, 97]]).2 :=
  decider_singleton_group [[[47, 97, 47, 120]]] [[47, 97]] [47, 97, 47, 120]
    (by decide) (by decide)

theorem decideGroup_congr {g₁ g₂ : List Bytes} (ps : List Bytes)
    (h : List.Perm g₁ g₂) : decideGroup g₁ ps = decideGroup g₂ ps := by
  have hs := sortBytes_eq_of_perm h
  simp only [decideGroup, hs]

/-- C5: the keep/delete split computed by `decider` is unchanged when the
paths within each digest group arrive in a different order — the decision
depends only on each group's members (re-sorted inside `decider`) and on
the prefixes, not on hashing completion or insertion order. -/
theorem decider_perm_invariant (d₁ d₂ : List (List Bytes)) (ps : List Bytes)
    (h : List.Forall₂ List.Perm d₁ d₂) : decider d₁ ps = decider d₂ ps := by
  induction h with
  | nil => rfl
  | cons hg _ ih => rw [decider_cons, decider_cons, decideGroup_congr ps hg, ih]

/-- Witness for C5: the group `{/b, /a}` presented in two arrival orders
yields the same result. -/
theorem decider_perm_invariant_witness :
    decider [[[47, 98], [47, 97]]] [[47, 97]] =
      decider [[[47, 97], [47, 98]]] [[47, 97]] :=
  decider_perm_invariant [[[47, 98], [47, 97]]] [[[47, 97], [47, 98]]] [[47, 97]]
    (List.Forall₂.cons (List.Perm.swap [47, 97] [47, 98] []) List.Forall₂.nil)

/-- C2: in a group with more than one member in which every member matches
some delete prefix, `decider` moves exactly one path from the
delete-candidates to the keep-candidates — the last element of the
accumulator as built; in particular `{/a/x, /a/y}` with prefix `/a` gives
keep `{/a/y}`, delete `{/a/x}`. -/
theorem decider_pop_last (g ps : List Bytes) (h2 : 1 < g.length)
    (hall : ∀ f ∈ g, ∃ p ∈ ps, startsWith f p = true) :
    (∃ l, (deleteCand (sortBytes g) ps).getLast? = some l ∧
        decideGroup g ps = ([l], (deleteCand (sortBytes g) ps).dropLast)) ∧
      decider [[[47, 97, 47, 120], [47, 97, 47, 121]]] [[47, 97]] =
        ([[47, 97, 47, 121]], [[47, 97, 47, 120]]) := by
  constructor
  · have hlen : 1 < (sortBytes g).length := by
      rw [(sortBytes_perm g).length_eq]
      exact h2
    have hk : (sortBytes g).filter
        (fun f => decide (f ∉ deleteCand (sortBytes g) ps)) = [] := by
      apply filter_eq_nil_iff.mpr
      intro f hf
      obtain ⟨p, hp, hs⟩ := hall f ((sortBytes_perm g).mem_iff.mp hf)
      have hmem : f ∈ deleteCand (sortBytes g) ps :=
        mem_deleteCand.mpr ⟨p, hp, hf, hs⟩
      simp [hmem]
    have hne : deleteCand (sortBytes g) ps ≠ [] := by
      have hsne : sortBytes g ≠ [] := by
        intro hc
        rw [hc] at hlen
        simp at hlen
      obtain ⟨f, hf⟩ := exists_mem_of_ne_nil _ hsne
      obtain ⟨p, hp, hs⟩ := hall f ((sortBytes_perm g).mem_iff.mp hf)
      exact ne_nil_of_mem (mem_deleteCand.mpr ⟨p, hp, hf, hs⟩)
    refine ⟨(deleteCand (sortBytes g) ps).getLast hne, getLast?_eq_getLast _ hne, ?_⟩
    rw [decideGroup_eq_of_pop hlen hk, reverse_take_one _ hne]
  · decide

/-- Witness for C2 at the group `{/a/x, /a/y}` with delete prefix `/a`. -/
theorem decider_pop_last_witness :
    (∃ l, (deleteCand (sortBytes [[47, 97, 47, 120], [47, 97, 47, 121]])
        [[47, 97]]).getLast? = some l ∧
        decideGroup [[47, 97, 47, 120], [47, 97, 47, 121]] [[47, 97]] =
          ([l], (deleteCand (sortBytes [[47, 97, 47, 120], [47, 97, 47, 121]])
            [[47, 97]]).dropLast)) ∧
      decider [[[47, 97, 47, 120], [47, 97, 47, 121]]] [[47, 97]] =
        ([[47, 97, 47, 121]], [[47, 97, 47, 120]]) :=
  decider_pop_last [[47, 97, 47, 120], [47, 97, 47, 121]] [[47, 97]]
    (by decide) (by decide)

/-- C6: in a group whose members are pairwise distinct, a member matching
k of the delete prefixes is appended to the delete-candidates accumulator
exactly once per matching prefix (so k times); hence the delete list can
contain the same path more than once, as at the concrete index
`{/a/b, /z}` with prefixes `/a` and `/a/b`. -/
theorem perm_count {l₁ l₂ : List Bytes} (h : List.Perm l₁ l₂) (x : Bytes) :
    l₁.count x = l₂.count x := by
  induction h with
  | nil => rfl
  | cons a _ ih => simp [count_cons, ih]
  | swap a b l =>
    simp only [count_cons]
    omega
  | trans _ _ ih1 ih2 => exact ih1.trans ih2

theorem count_eq_one_of_nodup_mem {l : List Bytes} {x : Bytes}
    (hnd : l.Nodup) (hx : x ∈ l) : l.count x = 1 := by
  induction l with
  | nil => cases hx
  | cons a l ih =>
    rcases mem_cons.mp hx with h | h
    · subst h
      have hnm : x ∉ l := (nodup_cons.mp hnd).1
      simp [count_cons, count_eq_zero.mpr hnm]
    · have hne : (x == a) = false := by
        have : x ≠ a := fun hc => (nodup_cons.mp hnd).1 (hc ▸ h)
        simp [this]
      simp [count_cons, hne, ih (nodup_cons.mp hnd).2 h]
      exact fun hc => (nodup_cons.mp hnd).1 (by rw [hc]; exact h)

theorem deleteCand_count_eq (g ps : List Bytes) (x : Bytes) (hnd : g.Nodup)
    (hx : x ∈ g) (h2 : 1 < g.length) :
    (deleteCand (sortBytes g) ps).count x =
        ps.countP (fun p => startsWith x p) ∧
      (decider [[[47, 97, 47, 98], [47, 122]]] [[47, 97], [47, 97, 47, 98]]).2 =
        [[47, 97, 47, 98], [47, 97, 47, 98]] := by
  constructor
  · rw [count_deleteCand]
    have h1 : (sortBytes g).count x = 1 :=
      (perm_count (sortBytes_perm g) x).trans (count_eq_one_of_nodup_mem hnd hx)
    rw [h1, mul_one]
  · decide

/-- Witness for C6: `/a/b` matches both prefixes `/a` and `/a/b`, so it is
counted twice in the accumulator. -/
theorem deleteCand_count_eq_witness :
    ((deleteCand (sortBytes [[47, 97, 47, 98], [47, 122]])
        [[47, 97], [47, 97, 47, 98]]).count [47, 97, 47, 98] =
      [[47, 97], [47, 97, 47, 98]].countP
        (fun p => startsWith [47, 97, 47, 98] p)) ∧
      (decider [[[47, 97, 47, 98], [47, 122]]] [[47, 97], [47, 97, 47, 98]]).2 =
        [[47, 97, 47, 98], [47, 97, 47, 98]] :=
  deleteCand_count_eq [[47, 97, 47, 98], [47, 122]] [[47, 97], [47, 97, 47, 98]]
    [47, 97, 47, 98] (by decide) (by decide) (by decide)

/-- A directory-tree entry: a regular file or a directory, with byte-string
names.  `generate_file_list`'s symbolic-link and empty-file filters are
orthogonal to the skip-directory pruning modelled here, so the tree holds
regular, non-empty, non-link entries. -/
inductive FSEntry : Type where
  | file (name : Bytes)
  | dir (name : Bytes) (entries : List FSEntry)

/-- The `dirs` list that `os.walk` hands to the loop body: names of the
subdirectories of one directory, in listing order. -/
def dirNames : List FSEntry → List Bytes
  | [] => []
  | .file _ :: rest => dirNames rest
  | .dir m _ :: rest => m :: dirNames rest

/-- The `filenames` list of one directory. -/
def fileNames : List FSEntry → List Bytes
  | [] => []
  | .file m :: rest => m :: fileNames rest
  | .dir _ _ :: rest => fileNames rest

/-- The pruning loop of `generate_file_list` (duped.py lines 56-58):

    for directory in dirs:
        if directory in skip_dirs:
            del dirs[dirs.index(directory)]

Python's list iterator keeps a position `i` that advances by one per
iteration over the *mutating* list; `del dirs[dirs.index(x)]` removes the
first occurrence of `x` (`List.erase`).  The loop stops when `i` reaches
the current length.  Since `i` grows by one per step and the list never
grows, the loop runs at most `dirs.length` steps, so that much fuel makes
`pruneGo` exactly the loop. -/
def pruneGo (skip : List Bytes) : Nat → List Bytes → Nat → List Bytes
  | 0, dirs, _ => dirs
  | fuel + 1, dirs, i =>
    if h : i < dirs.length then
      let x := dirs.get ⟨i, h⟩
      if x ∈ skip then pruneGo skip fuel (dirs.erase x) (i + 1)
      else pruneGo skip fuel dirs (i + 1)
    else dirs

/-- The pruning loop as run by the code: iterator position 0, fuel
`dirs.length` (enough, by the argument on `pruneGo`). -/
def pruneLoop (skip dirs : List Bytes) : List Bytes :=
  pruneGo skip dirs.length dirs 0

/-- Any fuel of at least `dirs.length - i` computes the loop's fixpoint, so
`pruneLoop`'s fuel choice is irrelevant: the model is the loop itself. -/
theorem pruneGo_fuel_irrelevant (skip : List Bytes) :
    ∀ (fuel₁ fuel₂ : Nat) (dirs : List Bytes) (i : Nat),
      dirs.length - i ≤ fuel₁ → dirs.length - i ≤ fuel₂ →
      pruneGo skip fuel₁ dirs i = pruneGo skip fuel₂ dirs i
  | 0, 0, dirs, i, _, _ => rfl
  | 0, fuel₂ + 1, dirs, i, h1, _ => by
    have hge : ¬ i < dirs.length := by omega
    simp only [pruneGo, dif_neg hge]
  | fuel₁ + 1, 0, dirs, i, _, h2 => by
    have hge : ¬ i < dirs.length := by omega
    simp only [pruneGo, dif_neg hge]
  | fuel₁ + 1, fuel₂ + 1, dirs, i, h1, h2 => by
    simp only [pruneGo]
    split
    · rename_i h
      split
      · rename_i hmem
        apply pruneGo_fuel_irrelevant skip fuel₁ fuel₂
        · have := length_erase_of_mem (get_mem dirs i h)
          omega
        · have := length_erase_of_mem (get_mem dirs i h)
          omega
      · exact pruneGo_fuel_irrelevant skip fuel₁ fuel₂ dirs (i + 1)
          (by omega) (by omega)
    · rfl

theorem pruneGo_singleton (s : Bytes) :
    ∀ (fuel : Nat) (dirs : List Bytes) (i : Nat),
      dirs.length - i ≤ fuel → dirs.count s ≤ 1 → s ∉ dirs.take i →
      s ∉ pruneGo [s] fuel dirs i
  | 0, dirs, i, hf, _, htake => by
    have hle : dirs.length ≤ i := by omega
    rw [take_of_length_le hle] at htake
    simpa [pruneGo] using htake
  | fuel + 1, dirs, i, hf, hcount, htake => by
    simp only [pruneGo]
    split
    · rename_i h
      split
      · rename_i hmem
        have hxs : dirs.get ⟨i, h⟩ = s := mem_singleton.mp hmem
        rw [hxs]
        have hsm : s ∈ dirs := hxs ▸ get_mem dirs i h
        have hpos : 0 < dirs.count s := count_pos_iff.mpr hsm
        have hcz : (dirs.erase s).count s = 0 := by
          have := count_erase_self s dirs
          omega
        have hnm : s ∉ dirs.erase s := count_eq_zero.mp hcz
        apply pruneGo_singleton s fuel (dirs.erase s) (i + 1)
        · have := length_erase_of_mem hsm
          omega
        · omega
        · exact fun hc => hnm (take_subset _ _ hc)
      · rename_i hmem
        apply pruneGo_singleton s fuel dirs (i + 1) (by omega) hcount
        intro hc
        rw [take_succ] at hc
        rcases mem_append.mp hc with hc1 | hc1
        · exact htake hc1
        · have hq : dirs[i]? = some (dirs.get ⟨i, h⟩) := getElem?_eq_getElem h
          rw [hq] at hc1
          simp only [Option.toList_some, mem_singleton] at hc1
          exact hmem (hc1 ▸ mem_singleton.mpr rfl)
    · rename_i h
      rw [take_of_length_le (by omega)] at htake
      exact htake

/-- The skip set built by `build` (duped.py lines 129-130):
`skip = ['.git']; skip.extend(args.skip)` — the bytes of `".git"` are
`[46, 103, 105, 116]`. -/
def buildSkip (userSkip : List Bytes) : List Bytes :=
  [46, 103, 105, 116] :: userSkip

/-- `generate_file_list` (duped.py lines 52-66) restricted to one root
directory: `os.walk` top-down.  For each directory visited, the skip loop
prunes its `dirs` list in place (`pruneLoop`), the directory's files are
yielded, and the walk then descends exactly into the subdirectories that
survived pruning.  A produced path is its component list, root first.
Recursion is by fuel, structurally; any fuel at least the tree's depth
computes the walk, and the wrapper `walkFiles` passes `sizeOf`, which
strictly dominates depth. -/
def walkGo (skip : List Bytes) : Nat → FSEntry → List Bytes → List (List Bytes)
  | 0, _, _ => []
  | fuel + 1, e, acc =>
    match e with
    | .file _ => []
    | .dir n entries =>
      let here := acc ++ [n]
      let pruned := pruneLoop skip (dirNames entries)
      ((fileNames entries).map fun f => here ++ [f]) ++
        entries.foldr (fun e2 r =>
          (match e2 with
            | .dir m _ => if m ∈ pruned then walkGo skip fuel e2 here else []
            | .file _ => []) ++ r) []

mutual
/-- Node count of a tree entry: a structural bound on its depth, used as
walk fuel. -/
def entrySize : FSEntry → Nat
  | .file _ => 1
  | .dir _ entries => 1 + entriesSize entries
/-- Node count of a list of tree entries. -/
def entriesSize : List FSEntry → Nat
  | [] => 0
  | e :: rest => entrySize e + entriesSize rest
end

/-- File discovery from one root directory, with the code's skip-dir
pruning. -/
def walkFiles (skip : List Bytes) (root : FSEntry) (acc : List Bytes) :
    List (List Bytes) :=
  walkGo skip (entrySize root) root acc

/-- C4 (code bug): the skip loop of `generate_file_list` deletes from
`dirs` while iterating it, so after removing a matched name the iterator
steps over the entry that shifted into its place; when two skip-named
directories are adjacent, the second survives.  Bytes: root =
`[114,111,111,116]`, a = `[97]`, b = `[98]`, f = `[102]`.  With skip set
{a, b} over a root whose subdirectory listing is `[a, b]`, pruning removes
only `a`, the walk descends into `b`, and the file `root/b/f` is produced
— a file beneath a skip-named directory. -/
theorem walk_adjacent_skip_bug :
    walkFiles [[97], [98]]
        (FSEntry.dir [114, 111, 111, 116]
          [FSEntry.dir [97] [], FSEntry.dir [98] [FSEntry.file [102]]]) [] =
      [[[114, 111, 111, 116], [98], [102]]] ∧
      pruneLoop [[97], [98]] [[97], [98]] = [[98]] := by
  decide

/-- C9 counterexample: `.git` (bytes `[46,103,105,116]`) is not always
skipped during discovery.  With user skip option `a` = `[97]`, the skip
set is {".git", "a"}; over a root whose subdirectory listing is
`[a, .git]`, the pruning loop removes `a` and then steps over `.git`, so
the walk descends into `.git` and produces the file `root/.git/f`. -/
theorem buildSkip_git_not_always_skipped :
    walkFiles (buildSkip [[97]])
        (FSEntry.dir [114, 111, 111, 116]
          [FSEntry.dir [97] [],
           FSEntry.dir [46, 103, 105, 116] [FSEntry.file [102]]]) [] =
      [[[114, 111, 111, 116], [46, 103, 105, 116], [102]]] := by
  decide

/-- C9 (amended): `build` always places `.git` in the skip set, whether or
not the user supplies `--skip` options; and when the user supplies none,
the skip set is exactly {".git"}, and the pruning loop then removes `.git`
from every duplicate-free `dirs` listing, so no `.git` subdirectory is
descended into during discovery. -/
theorem buildSkip_git_amended (us : List Bytes) (dirs : List Bytes)
    (hnd : dirs.Nodup) :
    [46, 103, 105, 116] ∈ buildSkip us ∧
      [46, 103, 105, 116] ∉ pruneLoop (buildSkip []) dirs := by
  constructor
  · exact mem_cons.mpr (Or.inl rfl)
  · have hbs : buildSkip [] = [[46, 103, 105, 116]] := rfl
    rw [hbs, pruneLoop]
    have hc : dirs.count [46, 103, 105, 116] ≤ 1 := by
      by_cases hm : [46, 103, 105, 116] ∈ dirs
      · exact le_of_eq (count_eq_one_of_nodup_mem hnd hm)
      · rw [count_eq_zero.mpr hm]
        omega
    exact pruneGo_singleton _ dirs.length dirs 0 (by omega) hc (by simp)

/-- Witness for C9's amended claim at a concrete `dirs` listing
`[x, .git, y]`. -/
theorem buildSkip_git_amended_witness :
    [46, 103, 105, 116] ∈ buildSkip [[97]] ∧
      [46, 103, 105, 116] ∉
        pruneLoop (buildSkip []) [[120], [46, 103, 105, 116], [121]] :=
  buildSkip_git_amended [[97]] [[120], [46, 103, 105, 116], [121]] (by decide)

/-- `HashDB` (duped.py lines 12-31): the digest → paths map (a `shelve`,
modelled as an association list in key order) and the internal error list.
A fresh build opens an empty store (`__init__`, with a new work
directory). -/
structure HashDB : Type where
  hash_dict : List (Bytes × List Bytes)
  error_list : List Bytes

/-- The empty database of a fresh build. -/
def HashDB.init : HashDB := ⟨[], []⟩

/-- `setdefault(file_hash, []); append(filename); store back`
(duped.py lines 18-20). -/
def addToGroup : List (Bytes × List Bytes) → Bytes → Bytes →
    List (Bytes × List Bytes)
  | [], h, f => [(h, [f])]
  | (k, fs) :: rest, h, f =>
    if k = h then (k, fs ++ [f]) :: rest else (k, fs) :: addToGroup rest h f

/-- `HashDB.add` (duped.py lines 17-20).  No branch inspects the digest for
the none sentinel, and `_error_list` is never touched: the only writes to
`_error_list` in the whole program are its initialisation to `[]`. -/
def HashDB.add (db : HashDB) (file_hash : Bytes) (filename : Bytes) : HashDB :=
  { db with hash_dict := addToGroup db.hash_dict file_hash filename }

/-- The result-consuming loop of `build` (duped.py lines 149-153): a result
whose filename or digest is falsy (`None` or empty) is skipped with a
`Bug:` diagnostic print and never reaches the database; otherwise the pair
is added. -/
def buildStep (db : HashDB) (r : Bytes × Option Bytes) : HashDB :=
  match r with
  | (_, none) => db
  | (fn, some h) => if fn = [] ∨ h = [] then db else db.add h fn

/-- The whole hashing phase of `build`: fold the result stream into a fresh
database. -/
def buildIndex (results : List (Bytes × Option Bytes)) : HashDB :=
  results.foldl buildStep HashDB.init

/-- C3 (code bug): a path whose hashing failed (digest none) is dropped by
`build`'s loop without touching the database, and nothing in the program
ever appends to the error list — after any result stream it is still empty.
The claimed behaviour (`add` records none-digest paths in the error list)
does not exist in the code. -/
theorem error_list_never_populated (results : List (Bytes × Option Bytes)) :
    (buildIndex results).error_list = [] ∧
      ∀ (db : HashDB) (fn : Bytes), buildStep db (fn, none) = db := by
  constructor
  · suffices h : ∀ db : HashDB,
        (results.foldl buildStep db).error_list = db.error_list by
      exact h HashDB.init
    induction results with
    | nil => exact fun db => rfl
    | cons r rest ih =>
      intro db
      rw [foldl_cons, ih (buildStep db r)]
      match r with
      | (_, none) => rfl
      | (fn, some h) =>
        simp only [buildStep]
        split <;> rfl
  · exact fun db fn => rfl

/-- Failure modes of opening and reading one file in `hasher`
(duped.py lines 44-48): the two caught classes, and the catch-all. -/
inductive ReadFailure : Type where
  | permissionDenied
  | fileNotFound
  | otherError (msg : Bytes)

/-- What the filesystem did for one file: the chunk stream read in the
`while` loop (duped.py lines 38-42), or a failure raised during open or
read. -/
inductive ReadOutcome : Type where
  | ok (chunks : List Bytes)
  | err (e : ReadFailure)

/-- `hasher(filename)` (duped.py lines 34-49), with the md5 function
abstracted as an argument consuming the concatenated chunk stream.  Result:
the returned `(filename, digest-or-none)` pair, and the diagnostic printed
to stderr (`Unhandled error: ...`), emitted only by the catch-all branch.
The function is total: every outcome returns a pair, none raises. -/
def hasher (md5 : Bytes → Bytes) (filename : Bytes) (oc : ReadOutcome) :
    (Bytes × Option Bytes) × Option ReadFailure :=
  match oc with
  | .ok chunks => ((filename, some (md5 (chunks.foldr (· ++ ·) []))), none)
  | .err .permissionDenied => ((filename, none), none)
  | .err .fileNotFound => ((filename, none), none)
  | .err (.otherError m) => ((filename, none), some (.otherError m))

/-- C8: `hasher` yields `(path, none)` on permission-denied and not-found
failures, yields `(path, none)` plus a diagnostic on any other failure, and
always returns the path in its pair — it is a total function, so one file's
failure cannot abort the hashing of other files. -/
theorem hasher_failures (md5 : Bytes → Bytes) (fn : Bytes) :
    (∀ e, (hasher md5 fn (ReadOutcome.err e)).1 = (fn, none)) ∧
      (hasher md5 fn (ReadOutcome.err ReadFailure.permissionDenied)).2 = none ∧
      (hasher md5 fn (ReadOutcome.err ReadFailure.fileNotFound)).2 = none ∧
      (∀ m, (hasher md5 fn (ReadOutcome.err (ReadFailure.otherError m))).2 =
        some (ReadFailure.otherError m)) ∧
      ∀ oc, (hasher md5 fn oc).1.1 = fn := by
  refine ⟨fun e => ?_, rfl, rfl, fun m => rfl, fun oc => ?_⟩
  · cases e <;> rfl
  · match oc with
    | .ok chunks => rfl
    | .err .permissionDenied => rfl
    | .err .fileNotFound => rfl
    | .err (.otherError m) => rfl
